import Mathlib

/-!
# Background Resource Quota Adjuster — formal model

A shallow embedding of `components/resource_control/src/worker.rs`
(`GroupQuotaAdjustWorker`): the periodic control loop that recomputes
per-resource-group rate limits for background workloads.

Modelling conventions:
* `f64` values are modelled as exact rationals `ℚ`; the special value
  `+∞` used for rate limits is modelled by the dedicated type `RateLimit`.
* The cumulative counters of `GroupStatistics` are `ℕ` (they are `u64`
  in the source).
* The per-dimension limiter reads (cumulative statistics, current rate
  limit) are snapshot inputs to the tick; the setpoint writes performed
  by a tick are returned as an ordered list of `(name, limit)` pairs.
* Machine epsilon `f64::EPSILON` is `2⁻⁵²`.

A separate small model of IEEE-754 doubles (`F64`, at the end of the
definitions) captures only what is needed to analyse NaN propagation in
the sort comparator.
-/

namespace Worker

/-- `f64::EPSILON = 2⁻⁵²`. -/
def eps : ℚ := 1 / 2 ^ 52

/-- Mirror of `ResourceUsageStats`: process-wide measurement for one
resource dimension. -/
structure ResourceUsageStats where
  total_quota : ℚ
  current_used : ℚ
deriving DecidableEq

/-- Mirror of `GroupStatistics` as consumed by the worker: cumulative
monotone counters reported by a sub-limiter.

Modelled from the spec: the struct itself and its pointwise subtraction
live in `resource_limiter.rs`, which is not part of the provided source;
§3 gives the integer fields and §7.3 requires an apparent counter
decrease to yield a zero delta, which truncated `ℕ` subtraction
provides. -/
structure GroupStatistics where
  total_consumed : ℕ
  total_wait_dur_us : ℕ
deriving DecidableEq

/-- Modelled from the spec: pointwise clamped subtraction of cumulative
counters (§3 "Subtraction is pointwise", §7.3 StaleCounters: an apparent
decrease is treated as a zero delta). -/
def GroupStatistics.sub (a b : GroupStatistics) : GroupStatistics :=
  ⟨a.total_consumed - b.total_consumed, a.total_wait_dur_us - b.total_wait_dur_us⟩

/-- A per-second consumption rate: a `GroupStatistics` delta divided by
the tick duration. -/
structure StatsRate where
  total_consumed : ℚ
  total_wait_dur_us : ℚ
deriving DecidableEq

/-- Modelled from the spec: pointwise scalar division of a counter delta
by the tick duration (§3, §4.3 S3). -/
def GroupStatistics.divBy (a : GroupStatistics) (d : ℚ) : StatsRate :=
  ⟨(a.total_consumed : ℚ) / d, (a.total_wait_dur_us : ℚ) / d⟩

/-- A sub-limiter rate limit: either `+∞` (uncapped) or a finite value. -/
inductive RateLimit where
  | inf : RateLimit
  | fin : ℚ → RateLimit
deriving DecidableEq

/-- The value the worker uses for a stored rate limit in S6:
`if rate_limit.is_infinite() { rate_limit = 0.0 }`. -/
def RateLimit.toQ : RateLimit → ℚ
  | .inf => 0
  | .fin q => q

/-- Per-group input snapshot for one dimension of one tick: the group
name and RU quota from the registry, plus the cumulative statistics and
the current rate limit read from that dimension's sub-limiter. -/
structure GroupIn where
  name : String
  ru_quota : ℚ
  total_stats : GroupStatistics
  rate_limit : RateLimit
deriving DecidableEq

/-- Mirror of the tick-local `GroupStats` record after the delta step:
`stats` holds the per-second delta, `expect_cost_per_ru` is filled by
the S6 loop (0 until then). -/
structure GroupSnap where
  name : String
  ru_quota : ℚ
  stats : StatsRate
  expect_cost_per_ru : ℚ
  rate_limit : RateLimit
deriving DecidableEq

/-- The per-dimension `prev_stats_by_group` map, modelled as an
association list. -/
def PrevMap := List (String × GroupStatistics)

instance : DecidableEq PrevMap := inferInstanceAs (DecidableEq (List (String × GroupStatistics)))

/-- Lookup in `prev_stats_by_group`. -/
def lookupPrev : PrevMap → String → Option GroupStatistics
  | [], _ => none
  | (k, v) :: rest, n => if k = n then some v else lookupPrev rest n

/-- Insert-or-replace in `prev_stats_by_group` (the effect of
`Entry::Occupied(s) => s.insert(v)` / `Entry::Vacant(v) => v.insert(v)`). -/
def insertPrev : PrevMap → String → GroupStatistics → PrevMap
  | [], n, s => [(n, s)]
  | (k, v) :: rest, n, s => if k = n then (k, s) :: rest else (k, v) :: insertPrev rest n s

/-- Per-dimension adjuster state: `prev_stats_by_group[dim]` and
`is_last_time_low_load[dim]`. -/
structure DimState where
  prev : PrevMap
  is_last_time_low_load : Bool
deriving DecidableEq

/-- Accumulator of the S3 loop of `do_adjust` (lines 195–215): the
threaded `prev_stats_by_group` map, the processed snapshots in order,
and the running `total_ru_quota`, `background_consumed_total`,
`has_wait`. -/
structure DeltaAcc where
  prev : PrevMap
  snaps : List GroupSnap
  total_ru_quota : ℚ
  background_consumed_total : ℚ
  has_wait : Bool
deriving DecidableEq

/-- One iteration of the S3 loop: read the cumulative stats, take the
delta against the stored baseline (replacing the baseline; a vacant
entry is seeded with the sample, which is also used as the delta),
divide by the tick duration, and accumulate. -/
def deltaStep (durSecs : ℚ) (acc : DeltaAcc) (g : GroupIn) : DeltaAcc :=
  let total_stats := g.total_stats
  let delta : GroupStatistics :=
    match lookupPrev acc.prev g.name with
    | some s => total_stats.sub s
    | none => total_stats
  let prev2 := insertPrev acc.prev g.name total_stats
  let rate := delta.divBy durSecs
  ⟨prev2,
   acc.snaps ++ [⟨g.name, g.ru_quota, rate, 0, g.rate_limit⟩],
   acc.total_ru_quota + g.ru_quota,
   acc.background_consumed_total + rate.total_consumed,
   acc.has_wait || decide (0 < rate.total_wait_dur_us)⟩

/-- The whole S3 loop over the group snapshot. -/
def computeDeltas (prev : PrevMap) (durSecs : ℚ) (groups : List GroupIn) : DeltaAcc :=
  groups.foldl (deltaStep durSecs) ⟨prev, [], 0, 0, false⟩

/-- S5 (lines 224–227):
`((total_quota - current_used + background_consumed_total) * 0.9).max(total_quota * 0.1)`. -/
def availableQuota (rs : ResourceUsageStats) (backgroundConsumedTotal : ℚ) : ℚ :=
  max ((rs.total_quota - rs.current_used + backgroundConsumedTotal) * (9 / 10))
    (rs.total_quota * (1 / 10))

/-- S6 (lines 230–237): a group's expected cost,
`delta.total_consumed + delta.total_wait_dur_us / 10⁶ × rate_limit`,
with an infinite stored rate limit read as `0`. -/
def groupExpectedCost (g : GroupSnap) : ℚ :=
  g.stats.total_consumed + g.stats.total_wait_dur_us / 1000000 * g.rate_limit.toQ

/-- S6: fill `expect_cost_per_ru` for one group. -/
def expectStep (g : GroupSnap) : GroupSnap :=
  ⟨g.name, g.ru_quota, g.stats, groupExpectedCost g / g.ru_quota, g.rate_limit⟩

/-- S6 applied to every group. -/
def withExpect (snaps : List GroupSnap) : List GroupSnap :=
  snaps.map expectStep

/-- S6: `total_expected_cost`, the sum of the groups' expected costs. -/
def totalExpectedCost (snaps : List GroupSnap) : ℚ :=
  (snaps.map groupExpectedCost).sum

/-- The S7 sort key order: ascending `expect_cost_per_ru`. -/
def leE (a b : GroupSnap) : Prop :=
  a.expect_cost_per_ru ≤ b.expect_cost_per_ru

instance : DecidableRel leE :=
  fun a b => inferInstanceAs (Decidable (a.expect_cost_per_ru ≤ b.expect_cost_per_ru))

instance : IsTotal GroupSnap leE :=
  ⟨fun a b => le_total a.expect_cost_per_ru b.expect_cost_per_ru⟩

instance : IsTrans GroupSnap leE :=
  ⟨fun _ _ _ hab hbc => le_trans hab hbc⟩

/-- The limit chosen for one group of the surplus pass (lines 248–253):
its expected cost when its `expect_cost_per_ru` exceeds the current fair
average, otherwise its fair share. -/
def surplusLimit (avail totalRu : ℚ) (g : GroupSnap) : ℚ :=
  if avail / totalRu < g.expect_cost_per_ru then g.expect_cost_per_ru * g.ru_quota
  else avail / totalRu * g.ru_quota

/-- The surplus allocation pass (lines 246–258), iterating the groups it
is given in order (the caller passes the sorted list reversed, i.e.
descending `expect_cost_per_ru`); `available_quota` and `total_ru_quota`
are decremented after each write. -/
def allocSurplus (avail totalRu : ℚ) : List GroupSnap → List (String × RateLimit)
  | [] => []
  | g :: rest =>
    let limit := surplusLimit avail totalRu g
    (g.name, RateLimit.fin limit) :: allocSurplus (avail - limit) (totalRu - g.ru_quota) rest

/-- The limit chosen for one group of the deficit pass (lines 263–268):
its expected cost when its `expect_cost_per_ru` is below the current
fair average, otherwise its fair share. -/
def deficitLimit (avail totalRu : ℚ) (g : GroupSnap) : ℚ :=
  if g.expect_cost_per_ru < avail / totalRu then g.expect_cost_per_ru * g.ru_quota
  else avail / totalRu * g.ru_quota

/-- The deficit allocation pass (lines 262–272), iterating the groups in
ascending `expect_cost_per_ru` order. -/
def allocDeficit (avail totalRu : ℚ) : List GroupSnap → List (String × RateLimit)
  | [] => []
  | g :: rest =>
    let limit := deficitLimit avail totalRu g
    (g.name, RateLimit.fin limit) :: allocDeficit (avail - limit) (totalRu - g.ru_quota) rest

/-- The outcome of `do_adjust` for one dimension: the setpoint writes it
performed, in order, and the updated per-dimension adjuster state. -/
structure AdjustResult where
  writes : List (String × RateLimit)
  state : DimState
deriving DecidableEq

/-- Mirror of `GroupQuotaAdjustWorker::do_adjust` (lines 173–273) for one
dimension. `measure` is the result of
`resource_quota_getter.get_current_stats` (`none` models the error
branch); `groups` carries the limiter reads of this tick. -/
def doAdjust (st : DimState) (durSecs : ℚ) (measure : Option ResourceUsageStats)
    (groups : List GroupIn) : AdjustResult :=
  match measure with
  | none => ⟨[], st⟩
  | some rs =>
    if rs.total_quota ≤ eps then
      ⟨groups.map (fun g => (g.name, RateLimit.inf)), st⟩
    else
      let acc := computeDeltas st.prev durSecs groups
      let is_low_load := decide (rs.current_used ≤ rs.total_quota * (1 / 10))
      if is_low_load && !acc.has_wait && st.is_last_time_low_load then
        ⟨[], ⟨acc.prev, st.is_last_time_low_load⟩⟩
      else
        let st2 : DimState := ⟨acc.prev, is_low_load⟩
        let avail := availableQuota rs acc.background_consumed_total
        let total_expected_cost := totalExpectedCost acc.snaps
        let sorted := List.insertionSort leE (withExpect acc.snaps)
        if total_expected_cost ≤ avail then
          ⟨allocSurplus avail acc.total_ru_quota sorted.reverse, st2⟩
        else
          ⟨allocDeficit avail acc.total_ru_quota sorted, st2⟩

/-- Whole-worker state: per-dimension maps and flags plus
`last_adjust_time` (modelled as a rational timestamp in seconds). -/
structure WorkerState where
  prevCpu : PrevMap
  prevIo : PrevMap
  last_adjust_time : ℚ
  lowCpu : Bool
  lowIo : Bool
deriving DecidableEq

/-- A registry group entry together with both sub-limiters' reads for
this tick. -/
structure GroupEntry where
  name : String
  ru_quota : ℚ
  cpu_stats : GroupStatistics
  cpu_rate_limit : RateLimit
  io_stats : GroupStatistics
  io_rate_limit : RateLimit
deriving DecidableEq

/-- The CPU-dimension view of a group entry (`limiter_fn = |l| &l.cpu_limiter`). -/
def GroupEntry.cpuIn (g : GroupEntry) : GroupIn :=
  ⟨g.name, g.ru_quota, g.cpu_stats, g.cpu_rate_limit⟩

/-- The IO-dimension view of a group entry (`limiter_fn = |l| &l.io_limiter`). -/
def GroupEntry.ioIn (g : GroupEntry) : GroupIn :=
  ⟨g.name, g.ru_quota, g.io_stats, g.io_rate_limit⟩

/-- The outcome of one `adjust_quota` tick: the setpoint writes of each
dimension and the updated worker state. -/
structure TickResult where
  cpuWrites : List (String × RateLimit)
  ioWrites : List (String × RateLimit)
  state : WorkerState
deriving DecidableEq

/-- Mirror of `GroupQuotaAdjustWorker::adjust_quota` (lines 135–171).
`now` is the current coarse timestamp; `saturating_duration_since`
clamps a negative elapsed time to `0`. `last_adjust_time` is set
unconditionally; a tick younger than one second, or an empty background
group list, returns without touching anything else. -/
def adjustQuota (ws : WorkerState) (now : ℚ) (mCpu mIo : Option ResourceUsageStats)
    (groups : List GroupEntry) : TickResult :=
  let durSecs := max (now - ws.last_adjust_time) 0
  if durSecs < 1 then
    ⟨[], [], ⟨ws.prevCpu, ws.prevIo, now, ws.lowCpu, ws.lowIo⟩⟩
  else if groups.isEmpty then
    ⟨[], [], ⟨ws.prevCpu, ws.prevIo, now, ws.lowCpu, ws.lowIo⟩⟩
  else
    let rc := doAdjust ⟨ws.prevCpu, ws.lowCpu⟩ durSecs mCpu (groups.map GroupEntry.cpuIn)
    let ri := doAdjust ⟨ws.prevIo, ws.lowIo⟩ durSecs mIo (groups.map GroupEntry.ioIn)
    ⟨rc.writes, ri.writes,
     ⟨rc.state.prev, ri.state.prev, now,
      rc.state.is_last_time_low_load, ri.state.is_last_time_low_load⟩⟩

end Worker

namespace Worker

/-! ## Structural lemmas about the embedding -/

/-- Sum of the RU quotas of a snapshot list. -/
def ruSum (l : List GroupSnap) : ℚ := (l.map GroupSnap.ru_quota).sum

/-- Sum of `expect_cost_per_ru × ru_quota` over a snapshot list. -/
def expSum (l : List GroupSnap) : ℚ :=
  (l.map (fun g => g.expect_cost_per_ru * g.ru_quota)).sum

/-- Sum of the finite setpoints written by an allocation pass. -/
def limitsSum (ws : List (String × RateLimit)) : ℚ :=
  (ws.map (fun p => p.2.toQ)).sum

/-- The descending order in which the surplus pass visits groups. -/
def geE (a b : GroupSnap) : Prop :=
  b.expect_cost_per_ru ≤ a.expect_cost_per_ru

theorem deltaStep_prev (durSecs : ℚ) (acc : DeltaAcc) (g : GroupIn) :
    (deltaStep durSecs acc g).prev = insertPrev acc.prev g.name g.total_stats := rfl

theorem foldl_deltaStep_prev (durSecs : ℚ) :
    ∀ (gs : List GroupIn) (acc : DeltaAcc),
      (gs.foldl (deltaStep durSecs) acc).prev
        = gs.foldl (fun p g => insertPrev p g.name g.total_stats) acc.prev
  | [], _ => rfl
  | g :: gs, acc => by
    rw [List.foldl_cons, List.foldl_cons, foldl_deltaStep_prev durSecs gs, deltaStep_prev]

theorem foldl_deltaStep_total_ru (durSecs : ℚ) :
    ∀ (gs : List GroupIn) (acc : DeltaAcc),
      (gs.foldl (deltaStep durSecs) acc).total_ru_quota
        = acc.total_ru_quota + (gs.map GroupIn.ru_quota).sum
  | [], acc => by simp
  | g :: gs, acc => by
    rw [List.foldl_cons, foldl_deltaStep_total_ru durSecs gs]
    simp [deltaStep]
    ring

theorem foldl_deltaStep_snaps_ru (durSecs : ℚ) :
    ∀ (gs : List GroupIn) (acc : DeltaAcc),
      ((gs.foldl (deltaStep durSecs) acc).snaps).map GroupSnap.ru_quota
        = acc.snaps.map GroupSnap.ru_quota ++ gs.map GroupIn.ru_quota
  | [], acc => by simp
  | g :: gs, acc => by
    rw [List.foldl_cons, foldl_deltaStep_snaps_ru durSecs gs]
    simp [deltaStep]

theorem foldl_deltaStep_bg (durSecs : ℚ) :
    ∀ (gs : List GroupIn) (acc : DeltaAcc),
      acc.background_consumed_total
          = (acc.snaps.map (fun s => s.stats.total_consumed)).sum →
      (gs.foldl (deltaStep durSecs) acc).background_consumed_total
        = (((gs.foldl (deltaStep durSecs) acc).snaps).map
            (fun s => s.stats.total_consumed)).sum
  | [], _, h => h
  | g :: gs, acc, h => by
    rw [List.foldl_cons]
    refine foldl_deltaStep_bg durSecs gs _ ?_
    simp [deltaStep, h]

theorem computeDeltas_prev (prev : PrevMap) (durSecs : ℚ) (groups : List GroupIn) :
    (computeDeltas prev durSecs groups).prev
      = groups.foldl (fun p g => insertPrev p g.name g.total_stats) prev :=
  foldl_deltaStep_prev durSecs groups _

theorem computeDeltas_ru_map (prev : PrevMap) (durSecs : ℚ) (groups : List GroupIn) :
    ((computeDeltas prev durSecs groups).snaps).map GroupSnap.ru_quota
      = groups.map GroupIn.ru_quota := by
  rw [computeDeltas, foldl_deltaStep_snaps_ru]
  simp

theorem computeDeltas_total_ru (prev : PrevMap) (durSecs : ℚ) (groups : List GroupIn) :
    (computeDeltas prev durSecs groups).total_ru_quota
      = ruSum (computeDeltas prev durSecs groups).snaps := by
  rw [computeDeltas, foldl_deltaStep_total_ru, ruSum, ← computeDeltas, computeDeltas_ru_map]
  simp

theorem computeDeltas_bg (prev : PrevMap) (durSecs : ℚ) (groups : List GroupIn) :
    (computeDeltas prev durSecs groups).background_consumed_total
      = (((computeDeltas prev durSecs groups).snaps).map
          (fun s => s.stats.total_consumed)).sum := by
  rw [computeDeltas]
  exact foldl_deltaStep_bg durSecs groups _ (by simp)

theorem doAdjust_none (st : DimState) (durSecs : ℚ) (groups : List GroupIn) :
    doAdjust st durSecs none groups = ⟨[], st⟩ := rfl

theorem doAdjust_unlimited (st : DimState) (durSecs : ℚ) (rs : ResourceUsageStats)
    (groups : List GroupIn) (h : rs.total_quota ≤ eps) :
    doAdjust st durSecs (some rs) groups
      = ⟨groups.map (fun g => (g.name, RateLimit.inf)), st⟩ := by
  simp [doAdjust, h]

theorem doAdjust_skip (st : DimState) (durSecs : ℚ) (rs : ResourceUsageStats)
    (groups : List GroupIn) (hq : ¬ rs.total_quota ≤ eps)
    (hc : (decide (rs.current_used ≤ rs.total_quota * (1 / 10)) &&
        !(computeDeltas st.prev durSecs groups).has_wait && st.is_last_time_low_load) = true) :
    doAdjust st durSecs (some rs) groups
      = ⟨[], ⟨(computeDeltas st.prev durSecs groups).prev, st.is_last_time_low_load⟩⟩ := by
  simp only [doAdjust]
  rw [if_neg hq, if_pos hc]

theorem doAdjust_surplus (st : DimState) (durSecs : ℚ) (rs : ResourceUsageStats)
    (groups : List GroupIn) (hq : ¬ rs.total_quota ≤ eps)
    (hc : (decide (rs.current_used ≤ rs.total_quota * (1 / 10)) &&
        !(computeDeltas st.prev durSecs groups).has_wait && st.is_last_time_low_load) = false)
    (hsur : totalExpectedCost (computeDeltas st.prev durSecs groups).snaps
        ≤ availableQuota rs (computeDeltas st.prev durSecs groups).background_consumed_total) :
    doAdjust st durSecs (some rs) groups
      = ⟨allocSurplus
            (availableQuota rs (computeDeltas st.prev durSecs groups).background_consumed_total)
            (computeDeltas st.prev durSecs groups).total_ru_quota
            (List.insertionSort leE (withExpect (computeDeltas st.prev durSecs groups).snaps)).reverse,
          ⟨(computeDeltas st.prev durSecs groups).prev,
            decide (rs.current_used ≤ rs.total_quota * (1 / 10))⟩⟩ := by
  simp only [doAdjust]
  rw [if_neg hq, if_neg (by rw [hc]; exact Bool.false_ne_true), if_pos hsur]

theorem doAdjust_deficit (st : DimState) (durSecs : ℚ) (rs : ResourceUsageStats)
    (groups : List GroupIn) (hq : ¬ rs.total_quota ≤ eps)
    (hc : (decide (rs.current_used ≤ rs.total_quota * (1 / 10)) &&
        !(computeDeltas st.prev durSecs groups).has_wait && st.is_last_time_low_load) = false)
    (hdef : ¬ totalExpectedCost (computeDeltas st.prev durSecs groups).snaps
        ≤ availableQuota rs (computeDeltas st.prev durSecs groups).background_consumed_total) :
    doAdjust st durSecs (some rs) groups
      = ⟨allocDeficit
            (availableQuota rs (computeDeltas st.prev durSecs groups).background_consumed_total)
            (computeDeltas st.prev durSecs groups).total_ru_quota
            (List.insertionSort leE (withExpect (computeDeltas st.prev durSecs groups).snaps)),
          ⟨(computeDeltas st.prev durSecs groups).prev,
            decide (rs.current_used ≤ rs.total_quota * (1 / 10))⟩⟩ := by
  simp only [doAdjust]
  rw [if_neg hq, if_neg (by rw [hc]; exact Bool.false_ne_true), if_neg hdef]

end Worker

namespace Worker

/-! ## The surplus pass: sum bound and fair-share property -/

theorem ruSum_nonneg (l : List GroupSnap) (h : ∀ g ∈ l, 0 ≤ g.ru_quota) :
    0 ≤ ruSum l := by
  refine List.sum_nonneg ?_
  intro x hx
  obtain ⟨g, hg, rfl⟩ := List.mem_map.mp hx
  exact h g hg

theorem expSum_le_mul (c : ℚ) :
    ∀ l : List GroupSnap, (∀ g ∈ l, 0 ≤ g.ru_quota) →
      (∀ g ∈ l, g.expect_cost_per_ru ≤ c) → expSum l ≤ c * ruSum l
  | [], _, _ => by simp [expSum, ruSum]
  | g :: rest, hru, he => by
    have h1 : g.expect_cost_per_ru * g.ru_quota ≤ c * g.ru_quota :=
      mul_le_mul_of_nonneg_right (he g (List.mem_cons_self g rest))
        (hru g (List.mem_cons_self g rest))
    have h2 := expSum_le_mul c rest (fun x hx => hru x (List.mem_cons_of_mem g hx))
      (fun x hx => he x (List.mem_cons_of_mem g hx))
    simp only [expSum, ruSum, List.map_cons, List.sum_cons] at h2 ⊢
    rw [mul_add]
    exact add_le_add h1 h2

/-- The surplus pass never hands out more than the headroom it started
with: if the total expected cost fits in `avail` and the pass visits the
groups in descending `expect_cost_per_ru` order with `total_ru_quota`
initialised to the sum of the RU quotas, the written limits sum to at
most `avail`. -/
theorem allocSurplus_sum_le :
    ∀ (l : List GroupSnap) (avail : ℚ),
      (∀ g ∈ l, 0 < g.ru_quota) → List.Pairwise geE l → expSum l ≤ avail →
      limitsSum (allocSurplus avail (ruSum l) l) ≤ avail
  | [], avail, _, _, hexp => by
    simpa [limitsSum, allocSurplus, expSum] using hexp
  | g :: rest, avail, hru, hpw, hexp => by
    have hg : 0 < g.ru_quota := hru g (List.mem_cons_self g rest)
    have hrest : ∀ x ∈ rest, 0 < x.ru_quota := fun x hx => hru x (List.mem_cons_of_mem g hx)
    have hpw2 : List.Pairwise geE rest := (List.pairwise_cons.mp hpw).2
    have hhead : ∀ x ∈ rest, x.expect_cost_per_ru ≤ g.expect_cost_per_ru :=
      fun x hx => (List.pairwise_cons.mp hpw).1 x hx
    have hsum0 : 0 ≤ ruSum rest := ruSum_nonneg rest (fun x hx => (hrest x hx).le)
    have ht : ruSum (g :: rest) = g.ru_quota + ruSum rest := by
      simp [ruSum]
    have htpos : 0 < ruSum (g :: rest) := by rw [ht]; linarith
    have htr : ruSum (g :: rest) - g.ru_quota = ruSum rest := by rw [ht]; ring
    have hexps : expSum (g :: rest)
        = g.expect_cost_per_ru * g.ru_quota + expSum rest := by
      simp [expSum]
    by_cases hcase : avail / ruSum (g :: rest) < g.expect_cost_per_ru
    · have hlim : surplusLimit avail (ruSum (g :: rest)) g
          = g.expect_cost_per_ru * g.ru_quota := by
        simp [surplusLimit, hcase]
      have hexp2 : expSum rest ≤ avail - g.expect_cost_per_ru * g.ru_quota := by
        linarith [hexp, hexps.ge]
      have ih := allocSurplus_sum_le rest (avail - g.expect_cost_per_ru * g.ru_quota)
        hrest hpw2 hexp2
      simp only [allocSurplus, limitsSum, List.map_cons, List.sum_cons, hlim, htr,
        RateLimit.toQ] at ih ⊢
      linarith [ih]
    · have hce : g.expect_cost_per_ru ≤ avail / ruSum (g :: rest) := le_of_not_lt hcase
      have hlim : surplusLimit avail (ruSum (g :: rest)) g
          = avail / ruSum (g :: rest) * g.ru_quota := by
        simp [surplusLimit, hcase]
      have h2 : avail / ruSum (g :: rest) * ruSum (g :: rest) = avail :=
        div_mul_cancel₀ avail (ne_of_gt htpos)
      have h3 : avail - avail / ruSum (g :: rest) * g.ru_quota
          = avail / ruSum (g :: rest) * ruSum rest := by
        calc avail - avail / ruSum (g :: rest) * g.ru_quota
            = avail / ruSum (g :: rest) * ruSum (g :: rest)
              - avail / ruSum (g :: rest) * g.ru_quota := by rw [h2]
          _ = avail / ruSum (g :: rest) * (ruSum (g :: rest) - g.ru_quota) := by ring
          _ = avail / ruSum (g :: rest) * ruSum rest := by rw [htr]
      have hexp2 : expSum rest ≤ avail - avail / ruSum (g :: rest) * g.ru_quota := by
        have h1 : expSum rest ≤ avail / ruSum (g :: rest) * ruSum rest :=
          expSum_le_mul (avail / ruSum (g :: rest)) rest
            (fun x hx => (hrest x hx).le)
            (fun x hx => le_trans (hhead x hx) hce)
        linarith [h1, h3.ge]
      have ih := allocSurplus_sum_le rest (avail - avail / ruSum (g :: rest) * g.ru_quota)
        hrest hpw2 hexp2
      simp only [allocSurplus, limitsSum, List.map_cons, List.sum_cons, hlim, htr,
        RateLimit.toQ] at ih ⊢
      linarith [ih]

/-- The per-turn fair-share property of the surplus pass, mirroring its
recursion: at each turn the written limit is at least the fair share
`avail / totalRu × ru_quota` computed at that turn, unless the group's
`expect_cost_per_ru × ru_quota` exceeds that fair share. -/
def surplusFair : ℚ → ℚ → List GroupSnap → Prop
  | _, _, [] => True
  | avail, totalRu, g :: rest =>
    (avail / totalRu * g.ru_quota ≤ surplusLimit avail totalRu g ∨
      avail / totalRu * g.ru_quota < g.expect_cost_per_ru * g.ru_quota) ∧
    surplusFair (avail - surplusLimit avail totalRu g) (totalRu - g.ru_quota) rest

theorem surplusFair_holds :
    ∀ (l : List GroupSnap) (avail totalRu : ℚ),
      (∀ g ∈ l, 0 ≤ g.ru_quota) → surplusFair avail totalRu l
  | [], _, _, _ => trivial
  | g :: rest, avail, totalRu, hru => by
    refine ⟨?_, surplusFair_holds rest _ _ (fun x hx => hru x (List.mem_cons_of_mem g hx))⟩
    by_cases hcase : avail / totalRu < g.expect_cost_per_ru
    · left
      rw [surplusLimit, if_pos hcase]
      exact mul_le_mul_of_nonneg_right hcase.le (hru g (List.mem_cons_self g rest))
    · left
      rw [surplusLimit, if_neg hcase]

/-! ## Divisor positivity of both allocation passes (C8) -/

/-- `total_ru_quota` positivity along the surplus pass, mirroring its
recursion exactly (including the post-division decrements of
`available_quota` and `total_ru_quota`). -/
def surplusDivPos : ℚ → ℚ → List GroupSnap → Prop
  | _, _, [] => True
  | avail, totalRu, g :: rest =>
    0 < totalRu ∧
    surplusDivPos (avail - surplusLimit avail totalRu g) (totalRu - g.ru_quota) rest

/-- `total_ru_quota` positivity along the deficit pass. -/
def deficitDivPos : ℚ → ℚ → List GroupSnap → Prop
  | _, _, [] => True
  | avail, totalRu, g :: rest =>
    0 < totalRu ∧
    deficitDivPos (avail - deficitLimit avail totalRu g) (totalRu - g.ru_quota) rest

/-- The value of `total_ru_quota` left after either allocation pass. -/
def remainingRu : ℚ → List GroupSnap → ℚ
  | totalRu, [] => totalRu
  | totalRu, g :: rest => remainingRu (totalRu - g.ru_quota) rest

theorem surplusDivPos_holds :
    ∀ (l : List GroupSnap) (avail : ℚ), (∀ g ∈ l, 0 < g.ru_quota) →
      surplusDivPos avail (ruSum l) l
  | [], _, _ => trivial
  | g :: rest, avail, hru => by
    have hg : 0 < g.ru_quota := hru g (List.mem_cons_self g rest)
    have hrest : ∀ x ∈ rest, 0 < x.ru_quota := fun x hx => hru x (List.mem_cons_of_mem g hx)
    have hsum0 : 0 ≤ ruSum rest := ruSum_nonneg rest (fun x hx => (hrest x hx).le)
    have ht : ruSum (g :: rest) = g.ru_quota + ruSum rest := by simp [ruSum]
    refine ⟨by rw [ht]; linarith, ?_⟩
    have htr : ruSum (g :: rest) - g.ru_quota = ruSum rest := by rw [ht]; ring
    rw [htr]
    exact surplusDivPos_holds rest _ hrest

theorem deficitDivPos_holds :
    ∀ (l : List GroupSnap) (avail : ℚ), (∀ g ∈ l, 0 < g.ru_quota) →
      deficitDivPos avail (ruSum l) l
  | [], _, _ => trivial
  | g :: rest, avail, hru => by
    have hg : 0 < g.ru_quota := hru g (List.mem_cons_self g rest)
    have hrest : ∀ x ∈ rest, 0 < x.ru_quota := fun x hx => hru x (List.mem_cons_of_mem g hx)
    have hsum0 : 0 ≤ ruSum rest := ruSum_nonneg rest (fun x hx => (hrest x hx).le)
    have ht : ruSum (g :: rest) = g.ru_quota + ruSum rest := by simp [ruSum]
    refine ⟨by rw [ht]; linarith, ?_⟩
    have htr : ruSum (g :: rest) - g.ru_quota = ruSum rest := by rw [ht]; ring
    rw [htr]
    exact deficitDivPos_holds rest _ hrest

theorem remainingRu_eq :
    ∀ (l : List GroupSnap) (totalRu : ℚ), remainingRu totalRu l = totalRu - ruSum l
  | [], totalRu => by simp [remainingRu, ruSum]
  | g :: rest, totalRu => by
    rw [remainingRu, remainingRu_eq rest]
    simp [ruSum]
    ring

end Worker

namespace Worker

/-! ## Transport through S6 and the S7 sort -/

theorem ruSum_withExpect (l : List GroupSnap) : ruSum (withExpect l) = ruSum l := by
  induction l with
  | nil => rfl
  | cons g rest ih =>
    simp only [withExpect, ruSum, List.map_cons, List.sum_cons] at ih ⊢
    rw [ih]
    rfl

theorem expSum_withExpect (l : List GroupSnap) (h : ∀ g ∈ l, g.ru_quota ≠ 0) :
    expSum (withExpect l) = totalExpectedCost l := by
  induction l with
  | nil => rfl
  | cons g rest ih =>
    simp only [withExpect, expSum, totalExpectedCost, List.map_cons, List.sum_cons] at ih ⊢
    rw [ih (fun x hx => h x (List.mem_cons_of_mem g hx))]
    have : (expectStep g).expect_cost_per_ru * (expectStep g).ru_quota
        = groupExpectedCost g := by
      show groupExpectedCost g / g.ru_quota * g.ru_quota = groupExpectedCost g
      exact div_mul_cancel₀ _ (h g (List.mem_cons_self g rest))
    rw [this]

theorem withExpect_pos (l : List GroupSnap) (h : ∀ g ∈ l, 0 < g.ru_quota) :
    ∀ g ∈ withExpect l, 0 < g.ru_quota := by
  intro g hg
  obtain ⟨x, hx, rfl⟩ := List.mem_map.mp hg
  exact h x hx

/-- The list the surplus pass visits: the S7-sorted snapshots, reversed. -/
theorem sortedRev_perm (l : List GroupSnap) :
    (List.insertionSort leE l).reverse.Perm l :=
  (List.reverse_perm (List.insertionSort leE l)).trans (List.perm_insertionSort leE l)

theorem sortedRev_pairwise (l : List GroupSnap) :
    ((List.insertionSort leE l).reverse).Pairwise geE := by
  rw [List.pairwise_reverse]
  exact List.sorted_insertionSort leE l

theorem perm_ruSum {l₁ l₂ : List GroupSnap} (h : l₁.Perm l₂) : ruSum l₁ = ruSum l₂ :=
  (h.map GroupSnap.ru_quota).sum_eq

theorem perm_expSum {l₁ l₂ : List GroupSnap} (h : l₁.Perm l₂) : expSum l₁ = expSum l₂ :=
  (h.map _).sum_eq

theorem snaps_pos (prev : PrevMap) (durSecs : ℚ) (groups : List GroupIn)
    (hru : ∀ g ∈ groups, 0 < g.ru_quota) :
    ∀ s ∈ (computeDeltas prev durSecs groups).snaps, 0 < s.ru_quota := by
  intro s hs
  have hm : s.ru_quota ∈ ((computeDeltas prev durSecs groups).snaps).map GroupSnap.ru_quota :=
    List.mem_map_of_mem _ hs
  rw [computeDeltas_ru_map] at hm
  obtain ⟨g, hg, hge⟩ := List.mem_map.mp hm
  exact hge ▸ hru g hg

end Worker

namespace Worker

/-- C1: in a tick in which measurement succeeds, `total_quota` exceeds
machine epsilon, the low-load short-circuit does not fire, every group
has a strictly positive `ru_quota`, and
`total_expected_cost ≤ available_quota` (the surplus case), `do_adjust`
hands the surplus pass the groups in descending `expect_cost_per_ru`
order; the limits it writes sum to at most the initial
`available_quota` (exactly, in the exact-rational model — "within
floating-point rounding" in the source), and at every turn the written
limit is at least the fair share `available_quota / total_ru_quota ×
ru_quota` computed at that turn unless the group's
`expect_cost_per_ru × ru_quota` exceeds that fair share. -/
theorem surplus_allocation_correct (st : DimState) (durSecs : ℚ) (rs : ResourceUsageStats)
    (groups : List GroupIn)
    (hq : ¬ rs.total_quota ≤ eps)
    (hc : (decide (rs.current_used ≤ rs.total_quota * (1 / 10)) &&
        !(computeDeltas st.prev durSecs groups).has_wait && st.is_last_time_low_load) = false)
    (hru : ∀ g ∈ groups, 0 < g.ru_quota)
    (hsur : totalExpectedCost (computeDeltas st.prev durSecs groups).snaps
        ≤ availableQuota rs (computeDeltas st.prev durSecs groups).background_consumed_total) :
    (doAdjust st durSecs (some rs) groups).writes
      = allocSurplus
          (availableQuota rs (computeDeltas st.prev durSecs groups).background_consumed_total)
          (computeDeltas st.prev durSecs groups).total_ru_quota
          (List.insertionSort leE (withExpect (computeDeltas st.prev durSecs groups).snaps)).reverse
    ∧ ((List.insertionSort leE (withExpect (computeDeltas st.prev durSecs groups).snaps)).reverse).Pairwise geE
    ∧ limitsSum (doAdjust st durSecs (some rs) groups).writes
        ≤ availableQuota rs (computeDeltas st.prev durSecs groups).background_consumed_total
    ∧ surplusFair
        (availableQuota rs (computeDeltas st.prev durSecs groups).background_consumed_total)
        (computeDeltas st.prev durSecs groups).total_ru_quota
        (List.insertionSort leE (withExpect (computeDeltas st.prev durSecs groups).snaps)).reverse := by
  have hbr := doAdjust_surplus st durSecs rs groups hq hc hsur
  have hw : (doAdjust st durSecs (some rs) groups).writes
      = allocSurplus
          (availableQuota rs (computeDeltas st.prev durSecs groups).background_consumed_total)
          (computeDeltas st.prev durSecs groups).total_ru_quota
          (List.insertionSort leE (withExpect (computeDeltas st.prev durSecs groups).snaps)).reverse := by
    rw [hbr]
  have hsnpos := snaps_pos st.prev durSecs groups hru
  have hwpos := withExpect_pos _ hsnpos
  have hperm := sortedRev_perm (withExpect (computeDeltas st.prev durSecs groups).snaps)
  have hvpos : ∀ g ∈ (List.insertionSort leE
      (withExpect (computeDeltas st.prev durSecs groups).snaps)).reverse, 0 < g.ru_quota :=
    fun g hg => hwpos g (hperm.mem_iff.mp hg)
  have hpw := sortedRev_pairwise (withExpect (computeDeltas st.prev durSecs groups).snaps)
  have hrusum : (computeDeltas st.prev durSecs groups).total_ru_quota
      = ruSum (List.insertionSort leE
          (withExpect (computeDeltas st.prev durSecs groups).snaps)).reverse := by
    rw [perm_ruSum hperm, ruSum_withExpect, ← computeDeltas_total_ru]
  have hexp : expSum (List.insertionSort leE
        (withExpect (computeDeltas st.prev durSecs groups).snaps)).reverse
      ≤ availableQuota rs (computeDeltas st.prev durSecs groups).background_consumed_total := by
    rw [perm_expSum hperm, expSum_withExpect _ (fun g hg => (hsnpos g hg).ne')]
    exact hsur
  refine ⟨hw, hpw, ?_, ?_⟩
  · rw [hw, hrusum]
    exact allocSurplus_sum_le _ _ hvpos hpw hexp
  · exact surplusFair_holds _ _ _ (fun g hg => (hvpos g hg).le)

end Worker

namespace Worker

/-- C2: when measurement succeeds and the measured `total_quota` is at
most machine epsilon, `do_adjust` sets every participating group's
sub-limiter rate limit for the dimension to `+∞` and performs no
further adjustment in that tick: the result consists of exactly those
writes and the untouched adjuster state. -/
theorem unlimited_fast_path (st : DimState) (durSecs : ℚ) (rs : ResourceUsageStats)
    (groups : List GroupIn) (h : rs.total_quota ≤ eps) :
    doAdjust st durSecs (some rs) groups
      = ⟨groups.map (fun g => (g.name, RateLimit.inf)), st⟩ := by
  simp [doAdjust, h]

/-- C10 (implicit): on the measurement-error exit and on the unlimited
fast path, `do_adjust` leaves the dimension's adjuster state —
`prev_stats_by_group[dim]` and `is_last_time_low_load[dim]` — completely
unchanged (and the error exit writes no setpoint at all). -/
theorem error_and_fastpath_state_untouched (st : DimState) (durSecs : ℚ)
    (rs : ResourceUsageStats) (groups : List GroupIn) (h : rs.total_quota ≤ eps) :
    (doAdjust st durSecs none groups).writes = [] ∧
    (doAdjust st durSecs none groups).state = st ∧
    (doAdjust st durSecs (some rs) groups).state = st := by
  refine ⟨rfl, rfl, ?_⟩
  rw [doAdjust_unlimited st durSecs rs groups h]

/-- C4: with a successful measurement above the epsilon fast path, if
the load is low (`current_used ≤ 0.1 × total_quota`), no group's wait
delta is positive, and the previous processed tick also observed low
load (`is_last_time_low_load = true`), `do_adjust` returns with no
setpoint written and the flag untouched; in every other case it
proceeds and unconditionally sets `is_last_time_low_load` to the
current low-load value, so setpoints freeze only on the second
consecutive low-load, no-wait tick. -/
theorem low_load_two_tick_hysteresis (st : DimState) (durSecs : ℚ)
    (rs : ResourceUsageStats) (groups : List GroupIn)
    (hq : ¬ rs.total_quota ≤ eps) :
    ((decide (rs.current_used ≤ rs.total_quota * (1 / 10)) &&
        !(computeDeltas st.prev durSecs groups).has_wait && st.is_last_time_low_load) = true →
      (doAdjust st durSecs (some rs) groups).writes = [] ∧
      (doAdjust st durSecs (some rs) groups).state.is_last_time_low_load
        = st.is_last_time_low_load) ∧
    ((decide (rs.current_used ≤ rs.total_quota * (1 / 10)) &&
        !(computeDeltas st.prev durSecs groups).has_wait && st.is_last_time_low_load) = false →
      (doAdjust st durSecs (some rs) groups).state.is_last_time_low_load
        = decide (rs.current_used ≤ rs.total_quota * (1 / 10))) := by
  constructor
  · intro hc
    rw [doAdjust_skip st durSecs rs groups hq hc]
    exact ⟨rfl, rfl⟩
  · intro hc
    by_cases hsur : totalExpectedCost (computeDeltas st.prev durSecs groups).snaps
        ≤ availableQuota rs (computeDeltas st.prev durSecs groups).background_consumed_total
    · rw [doAdjust_surplus st durSecs rs groups hq hc hsur]
    · rw [doAdjust_deficit st durSecs rs groups hq hc hsur]

/-- C7: when a group's limiter reports a cumulative counter below the
stored baseline (an apparent reset), the S3 delta step replaces the
stored baseline with the new sample and the recorded consumption delta
for that component is zero for the tick. (Counter subtraction is
spec-modelled: the `Sub` impl lives outside the provided source.) -/
theorem stale_counter_resets_baseline (durSecs : ℚ) (acc : DeltaAcc) (g : GroupIn)
    (s : GroupStatistics) (hprev : lookupPrev acc.prev g.name = some s) :
    (deltaStep durSecs acc g).prev = insertPrev acc.prev g.name g.total_stats ∧
    (deltaStep durSecs acc g).snaps
      = acc.snaps
          ++ [⟨g.name, g.ru_quota, (g.total_stats.sub s).divBy durSecs, 0, g.rate_limit⟩] ∧
    (g.total_stats.total_consumed < s.total_consumed →
      ((g.total_stats.sub s).divBy durSecs).total_consumed = 0) ∧
    (g.total_stats.total_wait_dur_us < s.total_wait_dur_us →
      ((g.total_stats.sub s).divBy durSecs).total_wait_dur_us = 0) := by
  refine ⟨rfl, ?_, ?_, ?_⟩
  · simp [deltaStep, hprev]
  · intro h
    simp [GroupStatistics.sub, GroupStatistics.divBy, Nat.sub_eq_zero_of_le h.le]
  · intro h
    simp [GroupStatistics.sub, GroupStatistics.divBy, Nat.sub_eq_zero_of_le h.le]

/-- C8: in both allocation passes, with every group's `ru_quota`
strictly positive and `total_ru_quota` initialised (as in S3) to the sum
of the RU quotas, the divisor `total_ru_quota` is strictly positive at
every evaluation of `available_quota / total_ru_quota` — it is
decremented only after the division that uses it — and it reaches `0`
exactly after the last group's division. `surplusDivPos` /
`deficitDivPos` mirror the recursion of `allocSurplus` / `allocDeficit`
step for step. -/
theorem alloc_divisors_positive (l : List GroupSnap) (avail totalRu : ℚ)
    (hru : ∀ g ∈ l, 0 < g.ru_quota) (ht : totalRu = ruSum l) :
    surplusDivPos avail totalRu l ∧ deficitDivPos avail totalRu l ∧
    remainingRu totalRu l = 0 := by
  subst ht
  refine ⟨surplusDivPos_holds l avail hru, deficitDivPos_holds l avail hru, ?_⟩
  rw [remainingRu_eq]
  ring

/-- C3: in a tick that reaches the allocation step, the headroom handed
to the allocation pass (surplus or deficit) is
`max(0.9 × (total_quota − current_used + background_consumed_total),
0.1 × total_quota)`, where `background_consumed_total` is the sum of the
participating groups' per-second `total_consumed` deltas; in particular
it is never below 10 % of `total_quota`. -/
theorem headroom_formula (st : DimState) (durSecs : ℚ) (rs : ResourceUsageStats)
    (groups : List GroupIn)
    (hq : ¬ rs.total_quota ≤ eps)
    (hc : (decide (rs.current_used ≤ rs.total_quota * (1 / 10)) &&
        !(computeDeltas st.prev durSecs groups).has_wait && st.is_last_time_low_load) = false) :
    ((doAdjust st durSecs (some rs) groups).writes
        = allocSurplus
            (availableQuota rs (computeDeltas st.prev durSecs groups).background_consumed_total)
            (computeDeltas st.prev durSecs groups).total_ru_quota
            (List.insertionSort leE
              (withExpect (computeDeltas st.prev durSecs groups).snaps)).reverse
      ∨ (doAdjust st durSecs (some rs) groups).writes
        = allocDeficit
            (availableQuota rs (computeDeltas st.prev durSecs groups).background_consumed_total)
            (computeDeltas st.prev durSecs groups).total_ru_quota
            (List.insertionSort leE
              (withExpect (computeDeltas st.prev durSecs groups).snaps)))
    ∧ availableQuota rs (computeDeltas st.prev durSecs groups).background_consumed_total
        = max ((9 / 10) * (rs.total_quota - rs.current_used
              + (computeDeltas st.prev durSecs groups).background_consumed_total))
            ((1 / 10) * rs.total_quota)
    ∧ (computeDeltas st.prev durSecs groups).background_consumed_total
        = (((computeDeltas st.prev durSecs groups).snaps).map
            (fun s => s.stats.total_consumed)).sum
    ∧ rs.total_quota * (1 / 10)
        ≤ availableQuota rs (computeDeltas st.prev durSecs groups).background_consumed_total := by
  refine ⟨?_, ?_, computeDeltas_bg st.prev durSecs groups, le_max_right _ _⟩
  · by_cases hsur : totalExpectedCost (computeDeltas st.prev durSecs groups).snaps
        ≤ availableQuota rs (computeDeltas st.prev durSecs groups).background_consumed_total
    · left
      rw [doAdjust_surplus st durSecs rs groups hq hc hsur]
    · right
      rw [doAdjust_deficit st durSecs rs groups hq hc hsur]
  · rw [availableQuota, mul_comm (rs.total_quota - rs.current_used
      + (computeDeltas st.prev durSecs groups).background_consumed_total) (9 / 10),
      mul_comm rs.total_quota (1 / 10)]

/-- C5: `adjust_quota` sets `last_adjust_time` to the current time
unconditionally, and when less than one second has elapsed since the
previous call (with `saturating_duration_since` clamping a negative
elapsed time to zero) the tick returns immediately: no sub-limiter
setpoint is written and no per-dimension adjuster state
(`prev_stats_by_group`, `is_last_time_low_load`) is modified. -/
theorem tick_gating (ws : WorkerState) (now : ℚ) (mCpu mIo : Option ResourceUsageStats)
    (groups : List GroupEntry) :
    (adjustQuota ws now mCpu mIo groups).state.last_adjust_time = now ∧
    (max (now - ws.last_adjust_time) 0 < 1 →
      adjustQuota ws now mCpu mIo groups
        = ⟨[], [], ⟨ws.prevCpu, ws.prevIo, now, ws.lowCpu, ws.lowIo⟩⟩) := by
  constructor
  · simp only [adjustQuota]
    by_cases h1 : max (now - ws.last_adjust_time) 0 < 1
    · rw [if_pos h1]
    · rw [if_neg h1]
      by_cases h2 : groups.isEmpty = true
      · rw [if_pos h2]
      · rw [if_neg h2]
  · intro h
    simp only [adjustQuota]
    rw [if_pos h]

end Worker

namespace Worker

/-! ## Baseline map lookups after a tick (C9) -/

theorem lookupPrev_insertPrev_self (p : PrevMap) (n : String) (s : GroupStatistics) :
    lookupPrev (insertPrev p n s) n = some s := by
  induction p with
  | nil => simp [insertPrev, lookupPrev]
  | cons kv rest ih =>
    obtain ⟨k, v⟩ := kv
    by_cases h : k = n
    · simp [insertPrev, lookupPrev, h]
    · simp [insertPrev, lookupPrev, h, ih]

theorem lookupPrev_insertPrev_ne (p : PrevMap) (n m : String) (s : GroupStatistics)
    (h : m ≠ n) : lookupPrev (insertPrev p m s) n = lookupPrev p n := by
  induction p with
  | nil => simp [insertPrev, lookupPrev, h]
  | cons kv rest ih =>
    obtain ⟨k, v⟩ := kv
    by_cases hk : k = m
    · subst hk
      simp [insertPrev, lookupPrev, h]
    · by_cases hn : k = n
      · simp [insertPrev, lookupPrev, hk, hn, Ne.symm h]
      · simp [insertPrev, lookupPrev, hk, hn, ih]

theorem lookupPrev_foldl_not_mem :
    ∀ (gs : List GroupIn) (p : PrevMap) (n : String), n ∉ gs.map GroupIn.name →
      lookupPrev (gs.foldl (fun q g => insertPrev q g.name g.total_stats) p) n
        = lookupPrev p n
  | [], _, _, _ => rfl
  | g :: gs, p, n, h => by
    have h1 : n ≠ g.name := fun he => h (by simp [he])
    have h2 : n ∉ gs.map GroupIn.name := fun he => h (by simp [he])
    rw [List.foldl_cons, lookupPrev_foldl_not_mem gs _ n h2,
      lookupPrev_insertPrev_ne p n g.name g.total_stats (Ne.symm h1)]

theorem lookupPrev_foldl_mem :
    ∀ (gs : List GroupIn) (p : PrevMap), (gs.map GroupIn.name).Nodup →
      ∀ g ∈ gs,
        lookupPrev (gs.foldl (fun q g => insertPrev q g.name g.total_stats) p) g.name
          = some g.total_stats
  | [], _, _, g, hg => absurd hg (List.not_mem_nil g)
  | g0 :: gs, p, hnd, g, hg => by
    have hnd0 : (g0.name :: gs.map GroupIn.name).Nodup := by
      rw [List.map_cons] at hnd
      exact hnd
    have hnd1 : g0.name ∉ gs.map GroupIn.name := (List.nodup_cons.mp hnd0).1
    have hnd2 : (gs.map GroupIn.name).Nodup := (List.nodup_cons.mp hnd0).2
    rcases List.mem_cons.mp hg with rfl | hg2
    · rw [List.foldl_cons, lookupPrev_foldl_not_mem gs _ g.name hnd1,
        lookupPrev_insertPrev_self]
    · rw [List.foldl_cons]
      exact lookupPrev_foldl_mem gs _ hnd2 g hg2

/-- C9 (implicit): even when the low-load short-circuit returns with no
setpoint written, the per-group baselines in `prev_stats_by_group[dim]`
have already been replaced by the cumulative counters read this tick
(the S3 delta step runs before the short-circuit), so consumption during
the frozen interval is not re-counted by the next tick's delta. -/
theorem skip_path_baselines_updated (st : DimState) (durSecs : ℚ)
    (rs : ResourceUsageStats) (groups : List GroupIn)
    (hq : ¬ rs.total_quota ≤ eps)
    (hc : (decide (rs.current_used ≤ rs.total_quota * (1 / 10)) &&
        !(computeDeltas st.prev durSecs groups).has_wait && st.is_last_time_low_load) = true)
    (hnodup : (groups.map GroupIn.name).Nodup) :
    (doAdjust st durSecs (some rs) groups).writes = [] ∧
    (doAdjust st durSecs (some rs) groups).state.prev
      = (computeDeltas st.prev durSecs groups).prev ∧
    ∀ g ∈ groups,
      lookupPrev ((doAdjust st durSecs (some rs) groups).state.prev) g.name
        = some g.total_stats := by
  rw [doAdjust_skip st durSecs rs groups hq hc]
  refine ⟨rfl, rfl, ?_⟩
  intro g hg
  show lookupPrev (computeDeltas st.prev durSecs groups).prev g.name = some g.total_stats
  rw [computeDeltas_prev]
  exact lookupPrev_foldl_mem groups st.prev hnodup g hg

end Worker

namespace Worker

/-! ## NaN analysis of the S7 sort comparator (C6)

The `ℚ` model above cannot represent NaN, so the comparator analysis
uses a small model of IEEE-754 binary64 values: NaN, the two
infinities, and finite values as exact rationals (signed zero and
rounding are immaterial to NaN propagation in the S6 expression). -/

/-- A minimal model of an `f64` value. -/
inductive F64 where
  | nan : F64
  | inf : F64
  | ninf : F64
  | fin : ℚ → F64
deriving DecidableEq

/-- IEEE-754 addition restricted to this model: NaN propagates,
`∞ + (−∞)` is NaN. -/
def F64.add : F64 → F64 → F64
  | .nan, _ => .nan
  | _, .nan => .nan
  | .inf, .ninf => .nan
  | .ninf, .inf => .nan
  | .inf, _ => .inf
  | _, .inf => .inf
  | .ninf, _ => .ninf
  | _, .ninf => .ninf
  | .fin a, .fin b => .fin (a + b)

/-- IEEE-754 multiplication restricted to this model: NaN propagates,
`±∞ × 0` is NaN. -/
def F64.mul : F64 → F64 → F64
  | .nan, _ => .nan
  | _, .nan => .nan
  | .inf, .inf => .inf
  | .inf, .ninf => .ninf
  | .ninf, .inf => .ninf
  | .ninf, .ninf => .inf
  | .inf, .fin b => if b = 0 then .nan else if 0 < b then .inf else .ninf
  | .fin a, .inf => if a = 0 then .nan else if 0 < a then .inf else .ninf
  | .ninf, .fin b => if b = 0 then .nan else if 0 < b then .ninf else .inf
  | .fin a, .ninf => if a = 0 then .nan else if 0 < a then .ninf else .inf
  | .fin a, .fin b => .fin (a * b)

/-- IEEE-754 division restricted to this model: NaN propagates, `∞/∞`
and `0/0` are NaN, `x/0` for `x ≠ 0` is a signed infinity. -/
def F64.div : F64 → F64 → F64
  | .nan, _ => .nan
  | _, .nan => .nan
  | .inf, .inf => .nan
  | .inf, .ninf => .nan
  | .ninf, .inf => .nan
  | .ninf, .ninf => .nan
  | .inf, .fin b => if 0 ≤ b then .inf else .ninf
  | .ninf, .fin b => if 0 ≤ b then .ninf else .inf
  | .fin _, .inf => .fin 0
  | .fin _, .ninf => .fin 0
  | .fin a, .fin b =>
    if b = 0 then (if a = 0 then .nan else if 0 < a then .inf else .ninf)
    else .fin (a / b)

/-- `f64::is_infinite`. -/
def F64.isInfinite : F64 → Bool
  | .inf => true
  | .ninf => true
  | _ => false

/-- `f64::partial_cmp` (the comparator unwraps this): `none` exactly
when an operand is NaN. -/
def F64.pcmp : F64 → F64 → Option Ordering
  | .nan, _ => none
  | _, .nan => none
  | .inf, .inf => some .eq
  | .inf, _ => some .gt
  | .ninf, .ninf => some .eq
  | .ninf, _ => some .lt
  | .fin _, .inf => some .lt
  | .fin _, .ninf => some .gt
  | .fin a, .fin b => some (if a < b then .lt else if b < a then .gt else .eq)

/-- The S6 computation of `expect_cost_per_ru` carried out in doubles,
exactly as in lines 230–236 of the source: `consumed` and `wait` are
the `u64` counter deltas cast to `f64`, `rl` is the stored rate limit
with `is_infinite()` values replaced by `0.0`, `ru` is
`get_ru_quota() as f64`. There is no sanitisation of NaN or of a zero
`ru_quota` anywhere in this expression or before the sort. -/
def expectCostPerRuF (consumed wait : ℕ) (rl ru : F64) : F64 :=
  let rl2 := if rl.isInfinite then F64.fin 0 else rl
  F64.div
    (F64.add (F64.fin consumed)
      (F64.mul (F64.div (F64.fin wait) (F64.fin 1000000)) rl2))
    ru

/-- C6 counterexample: the source comparator
`g1.expect_cost_per_ru.partial_cmp(&g2.expect_cost_per_ru).unwrap()` is
not protected by any defensive treatment of degenerate inputs. For a
group with `ru_quota = 0` and zero measured consumption and wait,
`expect_cost_per_ru = 0.0 / 0.0 = NaN`, and `partial_cmp` on that value
yields no ordering — the `unwrap` would panic instead of treating the
NaN as 0. -/
theorem comparator_nan_counterexample :
    F64.pcmp (expectCostPerRuF 0 0 (F64.fin 0) (F64.fin 0))
        (expectCostPerRuF 0 0 (F64.fin 0) (F64.fin 0)) = none
    ∧ expectCostPerRuF 0 0 (F64.fin 0) (F64.fin 0) = F64.nan := by
  have h : expectCostPerRuF 0 0 (F64.fin 0) (F64.fin 0) = F64.nan := by
    simp [expectCostPerRuF, F64.isInfinite, F64.div, F64.mul, F64.add]
  refine ⟨?_, h⟩
  rw [h]
  rfl

theorem F64.pcmp_isSome (a b : F64) (ha : a ≠ F64.nan) (hb : b ≠ F64.nan) :
    ∃ o, F64.pcmp a b = some o := by
  cases a <;> cases b <;> simp_all [F64.pcmp]

theorem expectCostPerRuF_ne_nan (consumed wait : ℕ) (rl : F64) (r : ℚ)
    (hrl : rl ≠ F64.nan) (hr : r ≠ 0) :
    expectCostPerRuF consumed wait rl (F64.fin r) ≠ F64.nan := by
  have h1e6 : (1000000 : ℚ) ≠ 0 := by norm_num
  cases rl with
  | nan => exact absurd rfl hrl
  | inf =>
    simp [expectCostPerRuF, F64.isInfinite, F64.div, F64.mul, F64.add, h1e6, hr]
  | ninf =>
    simp [expectCostPerRuF, F64.isInfinite, F64.div, F64.mul, F64.add, h1e6, hr]
  | fin q =>
    simp [expectCostPerRuF, F64.isInfinite, F64.div, F64.mul, F64.add, h1e6, hr]

/-- C6 amended: the comparator never encounters NaN *provided* every
group's `ru_quota` is strictly positive (as the data model requires) and
the stored rate limits are not NaN; then every `expect_cost_per_ru` is a
non-NaN double and `partial_cmp` always returns an ordering, so the sort
is total. The implementation itself contains no defensive treatment of
NaN or negative inputs (see `comparator_nan_counterexample`). -/
theorem comparator_total_of_pos_ru (c1 w1 c2 w2 : ℕ) (rl1 rl2 : F64) (r1 r2 : ℚ)
    (hrl1 : rl1 ≠ F64.nan) (hrl2 : rl2 ≠ F64.nan) (hr1 : 0 < r1) (hr2 : 0 < r2) :
    expectCostPerRuF c1 w1 rl1 (F64.fin r1) ≠ F64.nan ∧
    expectCostPerRuF c2 w2 rl2 (F64.fin r2) ≠ F64.nan ∧
    ∃ o, F64.pcmp (expectCostPerRuF c1 w1 rl1 (F64.fin r1))
        (expectCostPerRuF c2 w2 rl2 (F64.fin r2)) = some o := by
  have h1 := expectCostPerRuF_ne_nan c1 w1 rl1 r1 hrl1 hr1.ne'
  have h2 := expectCostPerRuF_ne_nan c2 w2 rl2 r2 hrl2 hr2.ne'
  exact ⟨h1, h2, F64.pcmp_isSome _ _ h1 h2⟩

end Worker

namespace Worker

/-! ## Concrete witnesses -/

theorem surplus_allocation_correct_witness :
    (¬ (100 : ℚ) ≤ eps) ∧
    limitsSum (doAdjust ⟨[], false⟩ 1 (some ⟨100, 50⟩)
        [⟨"a", 2, ⟨10, 0⟩, RateLimit.inf⟩]).writes
      ≤ availableQuota ⟨100, 50⟩
          (computeDeltas ([] : PrevMap) 1
            [⟨"a", 2, ⟨10, 0⟩, RateLimit.inf⟩]).background_consumed_total :=
  ⟨by norm_num [eps],
   (surplus_allocation_correct ⟨[], false⟩ 1 ⟨100, 50⟩ [⟨"a", 2, ⟨10, 0⟩, RateLimit.inf⟩]
      (by norm_num [eps]) (by simp)
      (by
        intro g hg
        rw [List.mem_singleton] at hg
        subst hg
        norm_num)
      (by norm_num [computeDeltas, deltaStep, lookupPrev, insertPrev, GroupStatistics.sub,
        GroupStatistics.divBy, totalExpectedCost, groupExpectedCost, availableQuota,
        RateLimit.toQ])).2.2.1⟩

theorem unlimited_fast_path_witness :
    ((0 : ℚ) ≤ eps) ∧
    doAdjust ⟨[], false⟩ 1 (some ⟨0, 0⟩) [⟨"a", 2, ⟨10, 3⟩, RateLimit.fin 7⟩]
      = ⟨[("a", RateLimit.inf)], ⟨[], false⟩⟩ :=
  ⟨by norm_num [eps],
   unlimited_fast_path ⟨[], false⟩ 1 ⟨0, 0⟩ [⟨"a", 2, ⟨10, 3⟩, RateLimit.fin 7⟩]
     (by norm_num [eps])⟩

theorem headroom_formula_witness :
    (¬ (200 : ℚ) ≤ eps) ∧
    (200 : ℚ) * (1 / 10)
      ≤ availableQuota ⟨200, 30⟩
          (computeDeltas ([] : PrevMap) 1
            [⟨"a", 4, ⟨8, 0⟩, RateLimit.fin 9⟩]).background_consumed_total :=
  ⟨by norm_num [eps],
   (headroom_formula ⟨[], false⟩ 1 ⟨200, 30⟩ [⟨"a", 4, ⟨8, 0⟩, RateLimit.fin 9⟩]
      (by norm_num [eps]) (by simp)).2.2.2⟩

theorem low_load_two_tick_hysteresis_witness :
    (¬ (100 : ℚ) ≤ eps) ∧
    (doAdjust ⟨[], false⟩ 1 (some ⟨100, 5⟩)
        [⟨"a", 2, ⟨10, 0⟩, RateLimit.inf⟩]).state.is_last_time_low_load
      = decide ((5 : ℚ) ≤ (100 : ℚ) * (1 / 10)) :=
  ⟨by norm_num [eps],
   (low_load_two_tick_hysteresis ⟨[], false⟩ 1 ⟨100, 5⟩ [⟨"a", 2, ⟨10, 0⟩, RateLimit.inf⟩]
      (by norm_num [eps])).2 (by simp)⟩

theorem tick_gating_witness :
    (max ((11 : ℚ) / 2 - 5) 0 < 1) ∧
    adjustQuota ⟨[], [], 5, false, false⟩ (11 / 2) none none []
      = ⟨[], [], ⟨[], [], 11 / 2, false, false⟩⟩ :=
  ⟨by norm_num,
   (tick_gating ⟨[], [], 5, false, false⟩ (11 / 2) none none []).2 (by norm_num)⟩

theorem stale_counter_resets_baseline_witness :
    (lookupPrev ([("a", ⟨10, 7⟩)] : PrevMap) "a" = some ⟨10, 7⟩) ∧
    ((GroupStatistics.sub ⟨4, 3⟩ ⟨10, 7⟩).divBy 1).total_consumed = 0 :=
  ⟨by simp [lookupPrev],
   (stale_counter_resets_baseline 1 ⟨[("a", ⟨10, 7⟩)], [], 0, 0, false⟩
      ⟨"a", 2, ⟨4, 3⟩, RateLimit.inf⟩ ⟨10, 7⟩ (by simp [lookupPrev])).2.2.1
     (by norm_num)⟩

theorem alloc_divisors_positive_witness :
    ((3 : ℚ) = ruSum [⟨"a", 2, ⟨0, 0⟩, 5, RateLimit.inf⟩,
        ⟨"b", 1, ⟨0, 0⟩, 3, RateLimit.fin 1⟩]) ∧
    remainingRu 3 [⟨"a", 2, ⟨0, 0⟩, 5, RateLimit.inf⟩,
        ⟨"b", 1, ⟨0, 0⟩, 3, RateLimit.fin 1⟩] = 0 :=
  ⟨by norm_num [ruSum],
   (alloc_divisors_positive
      [⟨"a", 2, ⟨0, 0⟩, 5, RateLimit.inf⟩, ⟨"b", 1, ⟨0, 0⟩, 3, RateLimit.fin 1⟩] 7 3
      (by
        intro g hg
        rcases List.mem_cons.mp hg with rfl | hg2
        · norm_num
        · rw [List.mem_singleton] at hg2
          subst hg2
          norm_num)
      (by norm_num [ruSum])).2.2⟩

theorem skip_path_baselines_updated_witness :
    (¬ (100 : ℚ) ≤ eps) ∧
    (doAdjust ⟨[], true⟩ 1 (some ⟨100, 5⟩)
        [⟨"a", 2, ⟨10, 0⟩, RateLimit.inf⟩]).writes = [] :=
  ⟨by norm_num [eps],
   (skip_path_baselines_updated ⟨[], true⟩ 1 ⟨100, 5⟩ [⟨"a", 2, ⟨10, 0⟩, RateLimit.inf⟩]
      (by norm_num [eps])
      (by norm_num [computeDeltas, deltaStep, lookupPrev, insertPrev,
        GroupStatistics.divBy])
      (by simp)).1⟩

theorem error_and_fastpath_state_untouched_witness :
    ((0 : ℚ) ≤ eps) ∧
    (doAdjust ⟨[("a", ⟨1, 2⟩)], true⟩ 1 (some ⟨0, 0⟩)
        [⟨"a", 2, ⟨10, 3⟩, RateLimit.fin 7⟩]).state = ⟨[("a", ⟨1, 2⟩)], true⟩ :=
  ⟨by norm_num [eps],
   (error_and_fastpath_state_untouched ⟨[("a", ⟨1, 2⟩)], true⟩ 1 ⟨0, 0⟩
      [⟨"a", 2, ⟨10, 3⟩, RateLimit.fin 7⟩] (by norm_num [eps])).2.2⟩

theorem comparator_total_of_pos_ru_witness :
    (F64.fin 5 ≠ F64.nan) ∧ ((0 : ℚ) < 1) ∧
    ∃ o, F64.pcmp (expectCostPerRuF 1 2 (F64.fin 5) (F64.fin 1))
        (expectCostPerRuF 3 0 F64.inf (F64.fin 2)) = some o :=
  ⟨by simp, by norm_num,
   (comparator_total_of_pos_ru 1 2 3 0 (F64.fin 5) F64.inf 1 2
      (by simp) (by simp) (by norm_num) (by norm_num)).2.2⟩

end Worker
